import Mathlib

/-!
Verification of the measurement/collapse engine of the
quantum-entanglement-simulation repository.

The source is embedded shallowly:

* two-qubit state vectors (numpy length-4 complex vectors indexed by the
  basis uu, ud, du, dd) become functions `Fin 2 → Fin 2 → ℂ`, where the
  numpy flat index is 2*i + j (exactly the `reshape (2,2,2,2)` convention
  the source uses for its partial traces);
* 2×2 complex matrices become `Matrix (Fin 2) (Fin 2) ℂ`;
* `random.uniform(0, 1)` draws become explicit real arguments;
* floating point arithmetic is embedded as exact real/complex arithmetic;
* the statistics code (`calculate_probabilities_exp2`, the correlation
  guard) works on recorded integer outcomes, and is embedded with exact
  rational arithmetic so that it stays executable.
-/

namespace QES

open ComplexConjugate

abbrev Qubit : Type := Fin 2 → ℂ

abbrev TwoQ : Type := Fin 2 → Fin 2 → ℂ

abbrev Mat2 : Type := Matrix (Fin 2) (Fin 2) ℂ

noncomputable section

/-- Hermitian inner product of two single-qubit vectors,
`⟨v, w⟩ = Σ conj (v a) * w a`. -/
def innerC (v w : Qubit) : ℂ := ∑ a, conj (v a) * w a

/-- Squared Euclidean norm of a single-qubit vector. -/
def normSqQ (v : Qubit) : ℝ := ∑ a, Complex.normSq (v a)

/-- The basis two-qubit state |i j⟩ (source: `np.kron` of basis vectors,
`TwoSpin.__b`). -/
def bvec (i j : Fin 2) : TwoQ := fun a b => if a = i ∧ b = j then 1 else 0

/-- `np.outer(d, d.conj())`: the (unnormalized) projector on a direction
vector, exactly as built in `TwoSpin.Measure` and `measureSpin`. -/
def proj (d : Qubit) : Mat2 := Matrix.of fun a b => d a * conj (d b)

/-- `Rho1` from `TwoSpin.Measure`: reduced density matrix of the first
qubit, `np.outer(psi, psi.conj()).reshape((2,2,2,2)).trace(axis1=1, axis2=3)`. -/
def Rho1 (ψ : TwoQ) : Mat2 := Matrix.of fun i k => ∑ j, ψ i j * conj (ψ k j)

/-- `Rho2` from `TwoSpin.Measure`: reduced density matrix of the second
qubit, tracing axes 0 and 2. -/
def Rho2 (ψ : TwoQ) : Mat2 := Matrix.of fun j l => ∑ i, ψ i j * conj (ψ i l)

/-- `np.dot(np.kron(P, np.eye(2)), psi)`: a 2×2 operator acting on the
first tensor factor of a two-qubit vector. -/
def applyP1 (P : Mat2) (ψ : TwoQ) : TwoQ := fun i j => ∑ k, P i k * ψ k j

/-- `np.dot(np.kron(np.eye(2), P), psi)`: a 2×2 operator acting on the
second tensor factor. -/
def applyP2 (P : Mat2) (ψ : TwoQ) : TwoQ := fun i j => ∑ k, P j k * ψ i k

/-- Sum of squared moduli of the four amplitudes. -/
def sumSq (ψ : TwoQ) : ℝ := ∑ i, ∑ j, Complex.normSq (ψ i j)

/-- `np.linalg.norm` of a two-qubit vector. -/
def norm4 (ψ : TwoQ) : ℝ := Real.sqrt (sumSq ψ)

/-- `psi_r = psi_r / np.linalg.norm(psi_r)`, the unconditional
normalization step of the collapse.  The source divides without any guard;
in exact arithmetic Lean's division-by-zero convention makes the result
the zero vector where numpy would produce NaN entries. -/
def normalize4 (ψ : TwoQ) : TwoQ := fun i j => ψ i j / ((norm4 ψ : ℝ) : ℂ)

/-- `np.linalg.norm(np.trace(np.dot(P, rho)))`: the absolute value of the
trace of `P·ρ`, the quantity the engine uses as a sampling probability. -/
def probOf (P ρ : Mat2) : ℝ := Complex.abs (Matrix.trace (P * ρ))

/-- Column overlaps `j ↦ Σ_i conj (v i) * ψ i j`; auxiliary for reasoning
about `Rho1`-side probabilities. -/
def colInner (v : Qubit) (ψ : TwoQ) : Qubit := fun j => ∑ i, conj (v i) * ψ i j

/-- Row overlaps `i ↦ Σ_j conj (w j) * ψ i j`; auxiliary for the `Rho2`
side. -/
def rowInner (w : Qubit) (ψ : TwoQ) : Qubit := fun i => ∑ j, conj (w j) * ψ i j

/-- Joint amplitude `⟨v ⊗ w, ψ⟩`. -/
def jointAmp (v w : Qubit) (ψ : TwoQ) : ℂ := innerC w (colInner v ψ)

/-- `prob_p11` of `TwoSpin.Measure` / `measureSpin`: probability that the
first measured subsystem reads +1. -/
def prob_p11 (ψ : TwoQ) (d1p d2p : Qubit) (simulate_1 : Bool) : ℝ :=
  probOf (if simulate_1 then proj d1p else proj d2p)
    (if simulate_1 then Rho1 ψ else Rho2 ψ)

/-- The collapsed, renormalized state `psi_r` of `TwoSpin.Measure`,
as a function of the first sampled outcome `sp1`. -/
def collapse1 (ψ : TwoQ) (d1p d1m d2p d2m : Qubit) (simulate_1 : Bool)
    (sp1 : ℤ) : TwoQ :=
  normalize4 (if simulate_1
    then applyP1 (if sp1 = 1 then proj d1p else proj d1m) ψ
    else applyP2 (if sp1 = 1 then proj d2p else proj d2m) ψ)

/-- `prob_p12` of `TwoSpin.Measure` / `measureSpin`: probability that the
second subsystem reads +1, computed from the collapsed state. -/
def prob_p12 (ψ : TwoQ) (d1p d1m d2p d2m : Qubit) (simulate_1 : Bool)
    (sp1 : ℤ) : ℝ :=
  probOf (if simulate_1 then proj d2p else proj d1p)
    (if simulate_1 then Rho2 (collapse1 ψ d1p d1m d2p d2m simulate_1 sp1)
      else Rho1 (collapse1 ψ d1p d1m d2p d2m simulate_1 sp1))

namespace TwoSpin

/-- `TwoSpin.Measure` (src/mod_spin_operators.py, lines 212–281) with the
stored state and the two `random.uniform(0, 1)` draws passed explicitly.
Outcome `sp1` belongs to the simulated (first-measured) subsystem,
`sp2` to the other one. -/
def Measure (ψ : TwoQ) (d1p d1m d2p d2m : Qubit) (simulate_1 : Bool)
    (u1 u2 : ℝ) : ℤ × ℤ :=
  let sp1 : ℤ := if u1 < prob_p11 ψ d1p d2p simulate_1 then 1 else -1
  let sp2 : ℤ :=
    if u2 < prob_p12 ψ d1p d1m d2p d2m simulate_1 sp1 then 1 else -1
  (sp1, sp2)

end TwoSpin

/-- The `TwoSpin` object state: the stored two-qubit vector
`self.__state`. -/
structure TwoSpinS where
  state : TwoQ

namespace TwoSpin

/-- `TwoSpin.Measure` as a state transformer.  In the source,
`psi = self.__state` aliases the stored array, nothing ever reassigns
`psi` (the collapse result lives in the separate local `psi_r`), and
`if update: self.__state = psi` writes that same original vector back.
The returned component is the post-call stored state. -/
def MeasureM (s : TwoSpinS) (d1p d1m d2p d2m : Qubit) (simulate_1 : Bool)
    (update : Bool) (u1 u2 : ℝ) : (ℤ × ℤ) × TwoSpinS :=
  let ψ := s.state
  let result := Measure ψ d1p d1m d2p d2m simulate_1 u1 u2
  (result, if update then { state := ψ } else s)

end TwoSpin

/-- `measureSpin` (src/two_spin_sim.py, lines 422–489).  Its body is
line-for-line the body of `TwoSpin.Measure` (with A playing the role of
subsystem 1), except that the final line maps the pair back to
(A-outcome, B-outcome) order: `return (sp1, sp2) if simulate_A else
(sp2, sp1)`. -/
def measureSpin (ψ : TwoQ) (dAp dAm dBp dBm : Qubit) (simulate_A : Bool)
    (u1 u2 : ℝ) : ℤ × ℤ :=
  let r := TwoSpin.Measure ψ dAp dAm dBp dBm simulate_A u1 u2
  if simulate_A then r else (r.2, r.1)

/-- One trial of `OpenGLWidget.measure` (src/epr_experiment.py, lines
638–676) at fixed switch settings: a draw `uorder` decides which
apparatus is simulated first; `(measurement1, measurement2)` receive
`Measure`'s pair directly when apparatus 1 goes first and swapped when
apparatus 2 goes first; when `cfg.invert` is set, `measurement2 *= -1`
afterwards. -/
def eprOutcomes (ψ : TwoQ) (d1p d1m d2p d2m : Qubit)
    (uorder u1 u2 : ℝ) (invert : Bool) : ℤ × ℤ :=
  let pair :=
    if uorder < 0.5 then TwoSpin.Measure ψ d1p d1m d2p d2m true u1 u2
    else
      let r := TwoSpin.Measure ψ d1p d1m d2p d2m false u1 u2
      (r.2, r.1)
  (pair.1, if invert then -pair.2 else pair.2)

/-- `1 / np.sqrt(2) * (self.__b[1] - self.__b[2])`: the singlet vector
built by `TwoSpin.Singlet`. -/
def singletV : TwoQ :=
  fun a b => ((1 / Real.sqrt 2 : ℝ) : ℂ) * (bvec 0 1 a b - bvec 1 0 a b)

/-- `1 / np.sqrt(2) * (self.__b[1] + self.__b[2])` (`Triplet(1)`). -/
def triplet1V : TwoQ :=
  fun a b => ((1 / Real.sqrt 2 : ℝ) : ℂ) * (bvec 0 1 a b + bvec 1 0 a b)

/-- `1 / np.sqrt(2) * (self.__b[0] + self.__b[3])` (`Triplet(2)`). -/
def triplet2V : TwoQ :=
  fun a b => ((1 / Real.sqrt 2 : ℝ) : ℂ) * (bvec 0 0 a b + bvec 1 1 a b)

/-- `1 / np.sqrt(2) * (self.__b[0] - self.__b[3])` (`Triplet(3)`). -/
def triplet3V : TwoQ :=
  fun a b => ((1 / Real.sqrt 2 : ℝ) : ℂ) * (bvec 0 0 a b - bvec 1 1 a b)

/-- `math.isclose(a, b)` with the default tolerances
`rel_tol = 1e-9`, `abs_tol = 0.0`:
`abs(a-b) <= max(rel_tol * max(abs(a), abs(b)), abs_tol)`. -/
def isclose (a b : ℝ) : Prop := |a - b| ≤ 1e-9 * max |a| |b|

open scoped Classical in
/-- The `psi` property setter of `TwoSpin` (src/mod_spin_operators.py,
lines 159–163): `assert math.isclose(np.linalg.norm(value), 1)` and only
then store the vector.  A failed assertion (rejected vector) is `none`. -/
def psiSet (v : TwoQ) : Option TwoSpinS :=
  if isclose (norm4 v) 1 then some { state := v } else none

namespace TwoSpin

/-- `TwoSpin.Singlet()`: assigns the singlet vector through the checked
`psi` setter. -/
def Singlet : Option TwoSpinS := psiSet singletV

/-- `TwoSpin.Triplet(i)`: assigns one of the triplet vectors through the
checked `psi` setter; an unrecognized index raises `ValueError` (`none`). -/
def Triplet (i : ℕ) : Option TwoSpinS :=
  match i with
  | 1 => psiSet triplet1V
  | 2 => psiSet triplet2V
  | 3 => psiSet triplet3V
  | _ => none

end TwoSpin

/-- The "+1" apparatus direction built by `OpenGLWidget.__init__`
(src/epr_experiment.py lines 132–149) and `measureAB`
(src/two_spin_sim.py lines 362–377):
`[cos(θ·s_t/2), exp(i·φ·s_p)·sin(θ·s_t/2)]` where `θ` and `φ` are the
apparatus angles in radians and `s_t`, `s_p` the Bloch scale
coefficients. -/
def eigenP (θ φ st sp2 : ℝ) : Qubit := fun a =>
  if a = 0 then ((Real.cos (θ * st / 2) : ℝ) : ℂ)
  else Complex.exp (Complex.I * ((φ * sp2 : ℝ) : ℂ)) * ((Real.sin (θ * st / 2) : ℝ) : ℂ)

/-- The "−1" apparatus direction: the same construction with the scaled
polar angle shifted by π (epr_experiment lines 150–170 add π to
`theta_i` before halving; two_spin_sim lines 367–371 add π/2 after
halving — the same vector). -/
def eigenM (θ φ st sp2 : ℝ) : Qubit := fun a =>
  if a = 0 then ((Real.cos ((θ * st + Real.pi) / 2) : ℝ) : ℂ)
  else Complex.exp (Complex.I * ((φ * sp2 : ℝ) : ℂ)) * ((Real.sin ((θ * st + Real.pi) / 2) : ℝ) : ℂ)

/-- The computational basis vector `u = [1, 0]` (spin up). -/
def qup : Qubit := fun a => if a = 0 then 1 else 0

/-- The computational basis vector `d = [0, 1]` (spin down). -/
def qdn : Qubit := fun a => if a = 0 then 0 else 1

/-- The zero vector, a degenerate direction argument. -/
def qzero : Qubit := fun _ => 0

/-- A non-unit direction vector `[2, 0]`. -/
def qtwo : Qubit := fun a => if a = 0 then 2 else 0

/-- The orthogonal complement `[-conj v1, conj v0]` of a single-qubit
vector; proof device for completing a unit vector to an orthonormal
basis. -/
def qperp (v : Qubit) : Qubit := fun a => if a = 0 then -(conj (v 1)) else conj (v 0)

end

/-- One recorded trial of the EPR experiment: entries of the four
parallel arrays `switches1`, `switches2`, `measurements1`,
`measurements2` (src/epr_experiment.py). -/
structure TrialRec where
  sw1 : ℤ
  sw2 : ℤ
  m1 : ℤ
  m2 : ℤ
deriving DecidableEq, Repr

/-- `OpenGLWidget.calculate_probabilities_exp2` (src/epr_experiment.py,
lines 613–629), with the float arithmetic carried out exactly in ℚ:
`np.mean` of a boolean mask over a selection is the matching count
divided by the selection size. -/
def calculate_probabilities_exp2 (recs : List TrialRec)
    (swA swB r1 r2 : ℤ) : ℕ × ℚ :=
  let cond1 := recs.filter fun t => t.sw1 == swA && t.sw2 == swB
  let count1 := cond1.length
  let cond2 := recs.filter fun t => t.sw1 == swB && t.sw2 == swA
  let count2 := cond2.length
  let countnb := count1 + count2
  let prob : ℚ :=
    if 0 < count1 then
      ((cond1.filter fun t => t.m1 == r1 && t.m2 == r2).length : ℚ) / count1
    else 0
  let prob : ℚ :=
    if 0 < count2 then
      (prob * count1 +
        (((cond2.filter fun t => t.m1 == r2 && t.m2 == r1).length : ℚ) / count2)
          * count2) / countnb
    else prob
  (countnb, prob)

/-- Number of recorded trials whose switch pair is `(sA, sB)` (the
claim's `n1` resp. `n2`). -/
def countSw (recs : List TrialRec) (sA sB : ℤ) : ℕ :=
  (recs.filter fun t => t.sw1 == sA && t.sw2 == sB).length

/-- Number of recorded trials with switch pair `(sA, sB)` whose outcome
pair is `(r1, r2)`; `countSwOut / countSw` is the claim's fraction `p1`
resp. `p2`. -/
def countSwOut (recs : List TrialRec) (sA sB r1 r2 : ℤ) : ℕ :=
  (recs.filter fun t =>
    (t.sw1 == sA && t.sw2 == sB) && (t.m1 == r1 && t.m2 == r2)).length

/-- The per-axis outcome sample lists `self.sigma[...]` of
`two_spin_sim.OpenGLWidget`, as far as the correlation display block
reads them. -/
structure SigmaS where
  Az : List ℚ
  Bz : List ℚ
  Ax : List ℚ
  Bx : List ℚ
  Ay : List ℚ
  By : List ℚ
  Athph : List ℚ
  Bthph : List ℚ
deriving Repr

/-- The guard of the correlation display block (src/two_spin_sim.py,
lines 270–272): `len(sigma['A']['th_ph']) > 0 and
len(sigma['B']['th_ph']) > 0 and len(sigma['A']['z']) > 3`. -/
def showCorr (s : SigmaS) : Bool :=
  decide (0 < s.Athph.length) && decide (0 < s.Bthph.length)
    && decide (3 < s.Az.length)

/-- Arithmetic mean of a rational sample (0 for the empty sample). -/
def listMean (xs : List ℚ) : ℚ := xs.sum / xs.length

/-- Sum of squared deviations from the mean. -/
def devSq (xs : List ℚ) : ℚ := (xs.map fun a => (a - listMean xs) ^ 2).sum

/-- Modelled from the spec: the spec's Pearson correlation lives in
library code (`np.corrcoef`), which is not part of this repository.
`np.corrcoef(x, y)[0, 1]` equals the covariance of the samples divided by
the product of their standard deviations, and is a well-defined number
exactly when both standard deviations are nonzero; otherwise numpy
divides by zero and the entry is NaN ("invalid value encountered in
divide", quoted in the source comment).  We model definedness: the
standard deviation of a sample is zero iff its sum of squared deviations
is zero, which is decidable in ℚ. -/
def corrDefined (x y : List ℚ) : Bool := !(devSq x == 0) && !(devSq y == 0)

/-! ### Basic algebraic facts about the embedded operations -/

lemma sumSq_nonneg (ψ : TwoQ) : 0 ≤ sumSq ψ := by
  refine Finset.sum_nonneg fun i _ => Finset.sum_nonneg fun j _ => ?_
  exact Complex.normSq_nonneg _

lemma normSqQ_nonneg (v : Qubit) : 0 ≤ normSqQ v :=
  Finset.sum_nonneg fun a _ => Complex.normSq_nonneg _

lemma probOf_nonneg (P ρ : Mat2) : 0 ≤ probOf P ρ := Complex.abs.nonneg _

lemma trace_proj_Rho1 (v : Qubit) (ψ : TwoQ) :
    Matrix.trace (proj v * Rho1 ψ) = ((normSqQ (colInner v ψ) : ℝ) : ℂ) := by
  simp only [Matrix.trace_fin_two, Matrix.mul_apply, proj, Rho1, Matrix.of_apply,
    normSqQ, colInner, Fin.sum_univ_two, Complex.ofReal_add, ← Complex.mul_conj,
    map_add, map_mul, Complex.conj_conj]
  ring

lemma trace_proj_Rho2 (w : Qubit) (ψ : TwoQ) :
    Matrix.trace (proj w * Rho2 ψ) = ((normSqQ (rowInner w ψ) : ℝ) : ℂ) := by
  simp only [Matrix.trace_fin_two, Matrix.mul_apply, proj, Rho2, Matrix.of_apply,
    normSqQ, rowInner, Fin.sum_univ_two, Complex.ofReal_add, ← Complex.mul_conj,
    map_add, map_mul, Complex.conj_conj]
  ring

lemma probOf_proj_Rho1 (v : Qubit) (ψ : TwoQ) :
    probOf (proj v) (Rho1 ψ) = normSqQ (colInner v ψ) := by
  rw [probOf, trace_proj_Rho1, Complex.abs_ofReal,
    abs_of_nonneg (normSqQ_nonneg _)]

lemma probOf_proj_Rho2 (w : Qubit) (ψ : TwoQ) :
    probOf (proj w) (Rho2 ψ) = normSqQ (rowInner w ψ) := by
  rw [probOf, trace_proj_Rho2, Complex.abs_ofReal,
    abs_of_nonneg (normSqQ_nonneg _)]

lemma applyP1_proj (v : Qubit) (ψ : TwoQ) (i j : Fin 2) :
    applyP1 (proj v) ψ i j = v i * colInner v ψ j := by
  simp only [applyP1, proj, Matrix.of_apply, colInner, Fin.sum_univ_two]
  ring

lemma applyP2_proj (w : Qubit) (ψ : TwoQ) (i j : Fin 2) :
    applyP2 (proj w) ψ i j = w j * rowInner w ψ i := by
  simp only [applyP2, proj, Matrix.of_apply, rowInner, Fin.sum_univ_two]
  ring

lemma normSqQ_smul (x : Qubit) (z : ℂ) :
    normSqQ (fun a => z * x a) = Complex.normSq z * normSqQ x := by
  simp only [normSqQ, Fin.sum_univ_two, Complex.normSq_mul]
  ring

lemma sumSq_applyP1_proj (v : Qubit) (ψ : TwoQ) :
    sumSq (applyP1 (proj v) ψ) = normSqQ v * normSqQ (colInner v ψ) := by
  simp only [sumSq, normSqQ, colInner, applyP1_proj, Fin.sum_univ_two,
    Complex.normSq_mul]
  ring

lemma sumSq_applyP2_proj (w : Qubit) (ψ : TwoQ) :
    sumSq (applyP2 (proj w) ψ) = normSqQ w * normSqQ (rowInner w ψ) := by
  simp only [sumSq, normSqQ, rowInner, applyP2_proj, Fin.sum_univ_two,
    Complex.normSq_mul]
  ring

lemma normSqQ_div (x : Qubit) (c : ℝ) :
    normSqQ (fun a => x a / (c : ℂ)) = normSqQ x / (c * c) := by
  simp only [normSqQ, Fin.sum_univ_two, Complex.normSq_div,
    Complex.normSq_ofReal]
  rw [div_add_div_same]

lemma rowInner_normalize (w : Qubit) (φ : TwoQ) :
    rowInner w (normalize4 φ) = fun i => rowInner w φ i / ((norm4 φ : ℝ) : ℂ) := by
  funext i
  simp only [rowInner, normalize4, Fin.sum_univ_two, mul_div_assoc, div_add_div_same]
  ring

lemma colInner_normalize (v : Qubit) (φ : TwoQ) :
    colInner v (normalize4 φ) = fun j => colInner v φ j / ((norm4 φ : ℝ) : ℂ) := by
  funext j
  simp only [colInner, normalize4, Fin.sum_univ_two, mul_div_assoc, div_add_div_same]
  ring

lemma probOf_proj_Rho2_normalize (w : Qubit) (φ : TwoQ) :
    probOf (proj w) (Rho2 (normalize4 φ)) = normSqQ (rowInner w φ) / sumSq φ := by
  rw [probOf_proj_Rho2, rowInner_normalize]
  rw [show (fun i => rowInner w φ i / ((norm4 φ : ℝ) : ℂ)) =
    fun i => (rowInner w φ) i / ((norm4 φ : ℝ) : ℂ) from rfl]
  rw [normSqQ_div, norm4, Real.mul_self_sqrt (sumSq_nonneg φ)]

lemma probOf_proj_Rho1_normalize (v : Qubit) (φ : TwoQ) :
    probOf (proj v) (Rho1 (normalize4 φ)) = normSqQ (colInner v φ) / sumSq φ := by
  rw [probOf_proj_Rho1, colInner_normalize]
  rw [show (fun j => colInner v φ j / ((norm4 φ : ℝ) : ℂ)) =
    fun j => (colInner v φ) j / ((norm4 φ : ℝ) : ℂ) from rfl]
  rw [normSqQ_div, norm4, Real.mul_self_sqrt (sumSq_nonneg φ)]

/-! ### Completeness and Parseval identities for an orthonormal pair -/

/-- An orthonormal pair of single-qubit vectors resolves the identity:
`vp a * conj (vp b) + vm a * conj (vm b) = δ_{ab}`. -/
lemma completeness (vp vm : Qubit) (hp : normSqQ vp = 1) (hm : normSqQ vm = 1)
    (ho : innerC vp vm = 0) (a b : Fin 2) :
    vp a * conj (vp b) + vm a * conj (vm b) = if a = b then 1 else 0 := by
  have hpc : (starRingEnd ℂ) (vp 0) * vp 0 + (starRingEnd ℂ) (vp 1) * vp 1 = 1 := by
    have : ((normSqQ vp : ℝ) : ℂ) = 1 := by rw [hp]; norm_num
    rw [← this]
    simp [normSqQ, Fin.sum_univ_two, Complex.ofReal_add, ← Complex.mul_conj]
    ring
  have hmc : (starRingEnd ℂ) (vm 0) * vm 0 + (starRingEnd ℂ) (vm 1) * vm 1 = 1 := by
    have : ((normSqQ vm : ℝ) : ℂ) = 1 := by rw [hm]; norm_num
    rw [← this]
    simp [normSqQ, Fin.sum_univ_two, Complex.ofReal_add, ← Complex.mul_conj]
    ring
  have hoc : (starRingEnd ℂ) (vp 0) * vm 0 + (starRingEnd ℂ) (vp 1) * vm 1 = 0 := by
    have := ho
    simpa [innerC, Fin.sum_univ_two] using this
  have hoc2 : (starRingEnd ℂ) (vm 0) * vp 0 + (starRingEnd ℂ) (vm 1) * vp 1 = 0 := by
    have := congrArg (starRingEnd ℂ) hoc
    simpa [map_add, map_mul, Complex.conj_conj, mul_comm] using this
  set U : Mat2 := Matrix.of fun x c => if c = (0 : Fin 2) then vp x else vm x with hU
  have h1 : U.conjTranspose * U = 1 := by
    ext c d
    fin_cases c <;> fin_cases d <;>
      simp only [Matrix.mul_apply, Matrix.conjTranspose_apply, Fin.sum_univ_two,
        Matrix.one_apply, hU, Matrix.of_apply, Fin.isValue, Fin.zero_eta, Fin.mk_one] <;>
      simp_all
  have h2 : U * U.conjTranspose = 1 := Matrix.mul_eq_one_comm.mp h1
  have h3 := congrFun (congrFun h2 a) b
  simpa [Matrix.mul_apply, Matrix.conjTranspose_apply, Fin.sum_univ_two, hU,
    Matrix.one_apply] using h3

/-- Parseval for an orthonormal pair of ℂ²: the squared overlaps with the
two basis vectors sum to the squared norm. -/
lemma parseval (vp vm : Qubit) (hp : normSqQ vp = 1) (hm : normSqQ vm = 1)
    (ho : innerC vp vm = 0) (c : Qubit) :
    Complex.normSq (innerC vp c) + Complex.normSq (innerC vm c) = normSqQ c := by
  have h00 := completeness vp vm hp hm ho 0 0
  have h01 := completeness vp vm hp hm ho 0 1
  have h10 := completeness vp vm hp hm ho 1 0
  have h11 := completeness vp vm hp hm ho 1 1
  norm_num at h00 h01 h10 h11
  rw [← Complex.ofReal_inj]
  simp only [Complex.ofReal_add, ← Complex.mul_conj, innerC, normSqQ,
    Fin.sum_univ_two, map_add, map_mul, Complex.conj_conj]
  linear_combination (c 0 * conj (c 0)) * h00 + (c 1 * conj (c 0)) * h01 +
    (c 0 * conj (c 1)) * h10 + (c 1 * conj (c 1)) * h11

/-- Parseval column form: the +1 and −1 first-subsystem probabilities sum
to the squared norm of the state. -/
lemma parseval_col (vp vm : Qubit) (hp : normSqQ vp = 1) (hm : normSqQ vm = 1)
    (ho : innerC vp vm = 0) (ψ : TwoQ) :
    normSqQ (colInner vp ψ) + normSqQ (colInner vm ψ) = sumSq ψ := by
  have p0 := parseval vp vm hp hm ho (fun i => ψ i 0)
  have p1 := parseval vp vm hp hm ho (fun i => ψ i 1)
  simp only [normSqQ, colInner, innerC, Fin.sum_univ_two] at p0 p1 ⊢
  simp only [sumSq, Fin.sum_univ_two]
  linarith

/-- Parseval row form. -/
lemma parseval_row (wp wm : Qubit) (hp : normSqQ wp = 1) (hm : normSqQ wm = 1)
    (ho : innerC wp wm = 0) (ψ : TwoQ) :
    normSqQ (rowInner wp ψ) + normSqQ (rowInner wm ψ) = sumSq ψ := by
  have p0 := parseval wp wm hp hm ho (fun j => ψ 0 j)
  have p1 := parseval wp wm hp hm ho (fun j => ψ 1 j)
  simp only [normSqQ, rowInner, innerC, Fin.sum_univ_two] at p0 p1 ⊢
  simp only [sumSq, Fin.sum_univ_two]
  linarith

/-- Parseval for the joint amplitudes against the second-subsystem pair. -/
lemma parseval_joint (wp wm : Qubit) (hp : normSqQ wp = 1) (hm : normSqQ wm = 1)
    (ho : innerC wp wm = 0) (v : Qubit) (ψ : TwoQ) :
    Complex.normSq (jointAmp v wp ψ) + Complex.normSq (jointAmp v wm ψ)
      = normSqQ (colInner v ψ) :=
  parseval wp wm hp hm ho (colInner v ψ)

/-- The joint amplitude can be read on either side. -/
lemma jointAmp_row (v w : Qubit) (ψ : TwoQ) :
    innerC v (rowInner w ψ) = jointAmp v w ψ := by
  simp only [innerC, jointAmp, colInner, rowInner, Fin.sum_univ_two]
  ring

/-- A vector of zero squared norm has zero overlap with everything. -/
lemma innerC_eq_zero_of_normSqQ_eq_zero (w c : Qubit) (h : normSqQ c = 0) :
    innerC w c = 0 := by
  have h0 : Complex.normSq (c 0) = 0 ∧ Complex.normSq (c 1) = 0 := by
    constructor <;>
    · have := Complex.normSq_nonneg (c 0)
      have := Complex.normSq_nonneg (c 1)
      simp only [normSqQ, Fin.sum_univ_two] at h
      linarith
  have hc0 : c 0 = 0 := by
    have := h0.1
    rwa [Complex.normSq_eq_zero] at this
  have hc1 : c 1 = 0 := by
    have := h0.2
    rwa [Complex.normSq_eq_zero] at this
  simp [innerC, Fin.sum_univ_two, hc0, hc1]

/-! ### Closed forms for the engine's sampling probabilities -/

lemma prob_p11_true (ψ : TwoQ) (d1p d2p : Qubit) :
    prob_p11 ψ d1p d2p true = normSqQ (colInner d1p ψ) := by
  simp [prob_p11, probOf_proj_Rho1]

lemma prob_p11_false (ψ : TwoQ) (d1p d2p : Qubit) :
    prob_p11 ψ d1p d2p false = normSqQ (rowInner d2p ψ) := by
  simp [prob_p11, probOf_proj_Rho2]

lemma rowInner_applyP1_proj (w v : Qubit) (ψ : TwoQ) :
    rowInner w (applyP1 (proj v) ψ) = fun i => v i * jointAmp v w ψ := by
  funext i
  simp only [rowInner, applyP1_proj, jointAmp, innerC, colInner, Fin.sum_univ_two]
  ring

lemma colInner_applyP2_proj (v w : Qubit) (ψ : TwoQ) :
    colInner v (applyP2 (proj w) ψ) = fun j => w j * jointAmp v w ψ := by
  funext j
  simp only [colInner, applyP2_proj, jointAmp, innerC, rowInner, Fin.sum_univ_two]
  ring

lemma probOf_cond_true (w v : Qubit) (ψ : TwoQ) (hv : normSqQ v = 1) :
    probOf (proj w) (Rho2 (normalize4 (applyP1 (proj v) ψ)))
      = Complex.normSq (jointAmp v w ψ) / normSqQ (colInner v ψ) := by
  rw [probOf_proj_Rho2_normalize, rowInner_applyP1_proj, sumSq_applyP1_proj, hv]
  have h : normSqQ (fun i => v i * jointAmp v w ψ)
      = Complex.normSq (jointAmp v w ψ) * normSqQ v := by
    simp only [normSqQ, Fin.sum_univ_two, Complex.normSq_mul]
    ring
  rw [h, hv]
  ring

lemma probOf_cond_false (v w : Qubit) (ψ : TwoQ) (hw : normSqQ w = 1) :
    probOf (proj v) (Rho1 (normalize4 (applyP2 (proj w) ψ)))
      = Complex.normSq (jointAmp v w ψ) / normSqQ (rowInner w ψ) := by
  rw [probOf_proj_Rho1_normalize, colInner_applyP2_proj, sumSq_applyP2_proj, hw]
  have h : normSqQ (fun j => w j * jointAmp v w ψ)
      = Complex.normSq (jointAmp v w ψ) * normSqQ w := by
    simp only [normSqQ, Fin.sum_univ_two, Complex.normSq_mul]
    ring
  rw [h, hw]
  ring

lemma prob_p12_true_eq (ψ : TwoQ) (d1p d1m d2p d2m : Qubit) (sp1 : ℤ) :
    prob_p12 ψ d1p d1m d2p d2m true sp1
      = probOf (proj d2p)
          (Rho2 (normalize4 (applyP1 (proj (if sp1 = 1 then d1p else d1m)) ψ))) := by
  by_cases h : sp1 = 1 <;> simp [prob_p12, collapse1, h]

lemma prob_p12_false_eq (ψ : TwoQ) (d1p d1m d2p d2m : Qubit) (sp1 : ℤ) :
    prob_p12 ψ d1p d1m d2p d2m false sp1
      = probOf (proj d1p)
          (Rho1 (normalize4 (applyP2 (proj (if sp1 = 1 then d2p else d2m)) ψ))) := by
  by_cases h : sp1 = 1 <;> simp [prob_p12, collapse1, h]

lemma Measure_eq (ψ : TwoQ) (d1p d1m d2p d2m : Qubit) (sim : Bool) (u1 u2 : ℝ) :
    TwoSpin.Measure ψ d1p d1m d2p d2m sim u1 u2 =
      ((if u1 < prob_p11 ψ d1p d2p sim then 1 else -1),
       (if u2 < prob_p12 ψ d1p d1m d2p d2m sim
          (if u1 < prob_p11 ψ d1p d2p sim then 1 else -1) then 1 else -1)) := rfl

/-! ### Facts about the singlet vector -/

lemma sqrt_two_inv_sq : (1 / Real.sqrt 2) * (1 / Real.sqrt 2) = 1 / 2 := by
  rw [div_mul_div_comm, one_mul, Real.mul_self_sqrt (by norm_num : (0:ℝ) ≤ 2)]

lemma cast_sqrt_two_inv_mul :
    ((Real.sqrt 2 : ℝ) : ℂ)⁻¹ * ((Real.sqrt 2 : ℝ) : ℂ)⁻¹ = 1 / 2 := by
  rw [← Complex.ofReal_inv, ← Complex.ofReal_mul]
  have h : (Real.sqrt 2)⁻¹ * (Real.sqrt 2)⁻¹ = 1 / 2 := by
    have := sqrt_two_inv_sq
    simpa [one_div] using this
  rw [h]
  norm_num

lemma sumSq_singletV : sumSq singletV = 1 := by
  simp only [sumSq, singletV, bvec, Fin.sum_univ_two]
  norm_num [Complex.normSq_mul, Complex.normSq_ofReal, sqrt_two_inv_sq]

lemma norm4_singletV : norm4 singletV = 1 := by
  rw [norm4, sumSq_singletV, Real.sqrt_one]

/-! ### Claim theorems (first group) -/

/-- Claim C10: `TwoSpin.Measure` never changes the stored state: `psi`
aliases `self.__state`, is never reassigned (the collapsed vector lives
in the local `psi_r`), and `update=True` writes the original `psi` back,
so for every direction arguments, draws, simulate flag and update flag,
the stored state after the call equals the stored state before it. -/
theorem C10_measure_preserves_state (s : TwoSpinS) (d1p d1m d2p d2m : Qubit)
    (simulate_1 update : Bool) (u1 u2 : ℝ) :
    (TwoSpin.MeasureM s d1p d1m d2p d2m simulate_1 update u1 u2).2 = s := by
  cases update <;> rfl

/-- Claim C3: for the singlet state, the reduced density matrix of either
subsystem (`Rho1` tracing out the second factor, `Rho2` the first) is
exactly the maximally mixed state `I/2`. -/
theorem C3_singlet_reduced_maximally_mixed :
    Rho1 singletV = (1/2 : ℂ) • (1 : Mat2) ∧
    Rho2 singletV = (1/2 : ℂ) • (1 : Mat2) := by
  constructor <;>
  · ext i k
    fin_cases i <;> fin_cases k <;>
      simp [Rho1, Rho2, singletV, bvec, Fin.sum_univ_two, Matrix.smul_apply,
        Matrix.one_apply, ← Complex.ofReal_mul, sqrt_two_inv_sq] <;>
      norm_num [cast_sqrt_two_inv_mul]

lemma sumSq_triplet1V : sumSq triplet1V = 1 := by
  simp only [sumSq, triplet1V, bvec, Fin.sum_univ_two]
  norm_num [Complex.normSq_mul, Complex.normSq_ofReal, sqrt_two_inv_sq]

lemma sumSq_triplet2V : sumSq triplet2V = 1 := by
  simp only [sumSq, triplet2V, bvec, Fin.sum_univ_two]
  norm_num [Complex.normSq_mul, Complex.normSq_ofReal, sqrt_two_inv_sq]

lemma sumSq_triplet3V : sumSq triplet3V = 1 := by
  simp only [sumSq, triplet3V, bvec, Fin.sum_univ_two]
  norm_num [Complex.normSq_mul, Complex.normSq_ofReal, sqrt_two_inv_sq]

lemma isclose_one_of_eq {x : ℝ} (h : x = 1) : isclose x 1 := by
  rw [isclose, h]
  norm_num

lemma psiSet_of_norm_one {v : TwoQ} (h : norm4 v = 1) :
    psiSet v = some { state := v } := by
  rw [psiSet, if_pos (isclose_one_of_eq h)]

/-- Claim C4: `Singlet()` stores `1/√2(|ud⟩−|du⟩)`, `Triplet(1..3)` store
`1/√2(|ud⟩+|du⟩)`, `1/√2(|uu⟩+|dd⟩)`, `1/√2(|uu⟩−|dd⟩)`; every state
accepted by the `psi` setter has norm 1 within `math.isclose` tolerance,
and a vector outside the tolerance is rejected (assertion failure) before
being stored. -/
theorem C4_state_preparation :
    TwoSpin.Singlet = some { state := singletV } ∧
    TwoSpin.Triplet 1 = some { state := triplet1V } ∧
    TwoSpin.Triplet 2 = some { state := triplet2V } ∧
    TwoSpin.Triplet 3 = some { state := triplet3V } ∧
    (∀ v s, psiSet v = some s → isclose (norm4 s.state) 1) ∧
    (∀ v, ¬ isclose (norm4 v) 1 → psiSet v = none) := by
  refine ⟨?_, ?_, ?_, ?_, ?_, ?_⟩
  · exact psiSet_of_norm_one norm4_singletV
  · exact psiSet_of_norm_one (by rw [norm4, sumSq_triplet1V, Real.sqrt_one])
  · exact psiSet_of_norm_one (by rw [norm4, sumSq_triplet2V, Real.sqrt_one])
  · exact psiSet_of_norm_one (by rw [norm4, sumSq_triplet3V, Real.sqrt_one])
  · intro v s h
    rw [psiSet] at h
    split_ifs at h with hcl
    · cases h
      exact hcl
  · intro v hv
    rw [psiSet, if_neg hv]

/-- Witness for C4: the singlet vector is accepted by the setter, and its
stored state passes the norm tolerance. -/
theorem C4_state_preparation_witness :
    isclose (norm4 (({ state := singletV } : TwoSpinS)).state) 1 :=
  C4_state_preparation.2.2.2.2.1 singletV { state := singletV }
    C4_state_preparation.1

/-- Claim C5: for every apparatus angles θ, φ and Bloch scale
coefficients, the "+1" eigenvector and the "−1" eigenvector (θ shifted by
π) form an orthonormal basis of ℂ²: they are orthogonal and each has unit
norm. -/
theorem C5_eigen_pair_orthonormal (θ φ st sp2 : ℝ) :
    innerC (eigenP θ φ st sp2) (eigenM θ φ st sp2) = 0 ∧
    normSqQ (eigenP θ φ st sp2) = 1 ∧ normSqQ (eigenM θ φ st sp2) = 1 := by
  have hhalf : (θ * st + Real.pi) / 2 = θ * st / 2 + Real.pi / 2 := by ring
  have hE : conj (Complex.exp (Complex.I * ((φ * sp2 : ℝ) : ℂ)))
      * Complex.exp (Complex.I * ((φ * sp2 : ℝ) : ℂ)) = 1 := by
    rw [← Complex.exp_conj]
    rw [show conj (Complex.I * ((φ * sp2 : ℝ) : ℂ))
      = -(Complex.I * ((φ * sp2 : ℝ) : ℂ)) by
        simp [map_mul, Complex.conj_I, Complex.conj_ofReal]]
    rw [← Complex.exp_add, neg_add_cancel, Complex.exp_zero]
  have hE2 : Complex.normSq (Complex.exp (Complex.I * ((φ * sp2 : ℝ) : ℂ))) = 1 := by
    have h := hE
    rw [← Complex.normSq_eq_conj_mul_self] at h
    exact_mod_cast h
  have hP0 : eigenP θ φ st sp2 0 = ((Real.cos (θ * st / 2) : ℝ) : ℂ) := rfl
  have hP1 : eigenP θ φ st sp2 1
      = Complex.exp (Complex.I * ((φ * sp2 : ℝ) : ℂ))
        * ((Real.sin (θ * st / 2) : ℝ) : ℂ) := rfl
  have hM0 : eigenM θ φ st sp2 0
      = ((Real.cos ((θ * st + Real.pi) / 2) : ℝ) : ℂ) := rfl
  have hM1 : eigenM θ φ st sp2 1
      = Complex.exp (Complex.I * ((φ * sp2 : ℝ) : ℂ))
        * ((Real.sin ((θ * st + Real.pi) / 2) : ℝ) : ℂ) := rfl
  refine ⟨?_, ?_, ?_⟩
  · rw [innerC, Fin.sum_univ_two, hP0, hP1, hM0, hM1]
    simp only [map_mul, Complex.conj_ofReal]
    rw [hhalf, Real.cos_add_pi_div_two, Real.sin_add_pi_div_two,
      Complex.ofReal_neg]
    linear_combination
      (((Real.sin (θ * st / 2) : ℝ) : ℂ) * ((Real.cos (θ * st / 2) : ℝ) : ℂ)) * hE
  · rw [normSqQ, Fin.sum_univ_two, hP0, hP1, Complex.normSq_mul, hE2, one_mul,
      Complex.normSq_ofReal, Complex.normSq_ofReal]
    linear_combination Real.sin_sq_add_cos_sq (θ * st / 2)
  · rw [normSqQ, Fin.sum_univ_two, hM0, hM1, Complex.normSq_mul, hE2, one_mul,
      Complex.normSq_ofReal, Complex.normSq_ofReal]
    linear_combination Real.sin_sq_add_cos_sq ((θ * st + Real.pi) / 2)

/-! ### Singlet-specific measurement facts -/

lemma colInner_singletV (v : Qubit) :
    colInner v singletV = fun j => ((1 / Real.sqrt 2 : ℝ) : ℂ) *
      (if j = 0 then -(conj (v 1)) else conj (v 0)) := by
  funext j
  fin_cases j <;>
    simp [colInner, singletV, bvec, Fin.sum_univ_two] <;> ring

lemma rowInner_singletV (w : Qubit) :
    rowInner w singletV = fun i => ((1 / Real.sqrt 2 : ℝ) : ℂ) *
      (if i = 0 then conj (w 1) else -(conj (w 0))) := by
  funext i
  fin_cases i <;>
    simp [rowInner, singletV, bvec, Fin.sum_univ_two] <;> ring

lemma normSqQ_colInner_singletV (v : Qubit) :
    normSqQ (colInner v singletV) = 1 / 2 * normSqQ v := by
  rw [colInner_singletV]
  simp only [normSqQ, Fin.sum_univ_two, Complex.normSq_mul, reduceIte,
    Complex.normSq_ofReal, Complex.normSq_neg, Complex.normSq_conj]
  rw [if_neg (show ¬((1 : Fin 2) = 0) from by decide)]
  simp only [Complex.normSq_neg, Complex.normSq_conj]
  rw [sqrt_two_inv_sq]
  ring

lemma normSqQ_rowInner_singletV (w : Qubit) :
    normSqQ (rowInner w singletV) = 1 / 2 * normSqQ w := by
  rw [rowInner_singletV]
  simp only [normSqQ, Fin.sum_univ_two, Complex.normSq_mul, reduceIte,
    Complex.normSq_ofReal, Complex.normSq_neg, Complex.normSq_conj]
  rw [if_neg (show ¬((1 : Fin 2) = 0) from by decide)]
  simp only [Complex.normSq_neg, Complex.normSq_conj]
  rw [sqrt_two_inv_sq]
  ring

/-- On the singlet, the joint amplitude of any direction with itself
vanishes: measuring both subsystems along the same axis can never give
the same collapsed component. -/
lemma jointAmp_self_singletV (v : Qubit) : jointAmp v v singletV = 0 := by
  rw [jointAmp, colInner_singletV, innerC, Fin.sum_univ_two]
  simp only [reduceIte]
  rw [if_neg (show ¬((1 : Fin 2) = 0) from by decide)]
  ring

/-- Claim C1: for the singlet state, with both apparatuses using the same
orthonormal direction pair, `TwoSpin.Measure` returns `sp2 = -sp1` on
every trial (for both simulate flags and all uniform draws in (0,1)),
so after the `cfg.invert` flip of `measurement2` the recorded outcomes
of one `OpenGLWidget.measure` trial always agree. -/
theorem C1_singlet_equal_directions_agreement (vp vm : Qubit)
    (hp : normSqQ vp = 1) (hm : normSqQ vm = 1) (ho : innerC vp vm = 0)
    (uorder u1 u2 : ℝ) (hu2a : 0 < u2) (hu2b : u2 < 1) :
    (∀ sim : Bool,
      (TwoSpin.Measure singletV vp vm vp vm sim u1 u2).2
        = -(TwoSpin.Measure singletV vp vm vp vm sim u1 u2).1) ∧
    (eprOutcomes singletV vp vm vp vm uorder u1 u2 true).1
      = (eprOutcomes singletV vp vm vp vm uorder u1 u2 true).2 := by
  have h12t1 : prob_p12 singletV vp vm vp vm true 1 = 0 := by
    rw [prob_p12_true_eq]
    rw [if_pos rfl, probOf_cond_true vp vp singletV hp, jointAmp_self_singletV]
    simp
  have h12tm1 : prob_p12 singletV vp vm vp vm true (-1) = 1 := by
    rw [prob_p12_true_eq]
    rw [if_neg (by decide : ¬((-1 : ℤ) = 1)),
      probOf_cond_true vp vm singletV hm]
    have hpar := parseval_joint vp vm hp hm ho vm singletV
    rw [jointAmp_self_singletV] at hpar
    simp only [map_zero, add_zero] at hpar
    rw [hpar, normSqQ_colInner_singletV, hm]
    norm_num
  have h12f1 : prob_p12 singletV vp vm vp vm false 1 = 0 := by
    rw [prob_p12_false_eq]
    rw [if_pos rfl, probOf_cond_false vp vp singletV hp, jointAmp_self_singletV]
    simp
  have h12fm1 : prob_p12 singletV vp vm vp vm false (-1) = 1 := by
    rw [prob_p12_false_eq]
    rw [if_neg (by decide : ¬((-1 : ℤ) = 1)),
      probOf_cond_false vp vm singletV hm]
    have hpar := parseval vp vm hp hm ho (colInner vp singletV)
    rw [show innerC vp (colInner vp singletV) = jointAmp vp vp singletV from rfl,
      show innerC vm (colInner vp singletV) = jointAmp vp vm singletV from rfl,
      jointAmp_self_singletV] at hpar
    simp only [map_zero, zero_add] at hpar
    rw [hpar, normSqQ_colInner_singletV, normSqQ_rowInner_singletV, hp, hm]
    norm_num
  have key : ∀ sim : Bool,
      (TwoSpin.Measure singletV vp vm vp vm sim u1 u2).2
        = -(TwoSpin.Measure singletV vp vm vp vm sim u1 u2).1 := by
    intro sim
    cases sim
    · rw [Measure_eq]
      by_cases h1 : u1 < prob_p11 singletV vp vp false
      · simp only [if_pos h1]
        rw [h12f1, if_neg (by linarith : ¬(u2 < (0:ℝ)))]
      · simp only [if_neg h1]
        rw [h12fm1, if_pos hu2b]
        decide
    · rw [Measure_eq]
      by_cases h1 : u1 < prob_p11 singletV vp vp true
      · simp only [if_pos h1]
        rw [h12t1, if_neg (by linarith : ¬(u2 < (0:ℝ)))]
      · simp only [if_neg h1]
        rw [h12tm1, if_pos hu2b]
        decide
  refine ⟨key, ?_⟩
  rw [eprOutcomes]
  by_cases ho2 : uorder < 0.5
  · simp only [if_pos ho2, reduceIte]
    have hk := key true
    omega
  · simp only [if_neg ho2, reduceIte]
    have hk := key false
    omega

/-! ### Distribution of outcomes over uniform draws -/

lemma ite_pm_eq_one {c : Prop} [Decidable c] :
    ((if c then (1:ℤ) else -1) = 1) ↔ c := by
  split_ifs with h <;> simp [h]

lemma vol_lower (p : ℝ) (hp1 : p ≤ 1) :
    MeasureTheory.volume {x : ℝ | x ∈ Set.Ioo (0:ℝ) 1 ∧ x < p}
      = ENNReal.ofReal p := by
  have hset : {x : ℝ | x ∈ Set.Ioo (0:ℝ) 1 ∧ x < p} = Set.Ioo 0 p := by
    ext x
    simp only [Set.mem_setOf_eq, Set.mem_Ioo]
    constructor
    · rintro ⟨⟨h0, _⟩, h2⟩
      exact ⟨h0, h2⟩
    · rintro ⟨h0, h2⟩
      exact ⟨⟨h0, lt_of_lt_of_le h2 hp1⟩, h2⟩
  rw [hset, Real.volume_Ioo, sub_zero]

lemma vol_upper (p : ℝ) (hp0 : 0 ≤ p) (hp1 : p ≤ 1) :
    MeasureTheory.volume {x : ℝ | x ∈ Set.Ioo (0:ℝ) 1 ∧ ¬ x < p}
      = ENNReal.ofReal (1 - p) := by
  rcases eq_or_lt_of_le hp0 with h | h
  · have hset : {x : ℝ | x ∈ Set.Ioo (0:ℝ) 1 ∧ ¬ x < p} = Set.Ioo 0 1 := by
      ext x
      simp only [Set.mem_setOf_eq, Set.mem_Ioo, not_lt]
      constructor
      · rintro ⟨hx, _⟩
        exact hx
      · rintro ⟨h0, h1x⟩
        exact ⟨⟨h0, h1x⟩, by rw [← h]; exact le_of_lt h0⟩
    rw [hset, Real.volume_Ioo, ← h]
  · have hset : {x : ℝ | x ∈ Set.Ioo (0:ℝ) 1 ∧ ¬ x < p} = Set.Ico p 1 := by
      ext x
      simp only [Set.mem_setOf_eq, Set.mem_Ioo, Set.mem_Ico, not_lt]
      constructor
      · rintro ⟨⟨_, h1x⟩, hpx⟩
        exact ⟨hpx, h1x⟩
      · rintro ⟨hpx, h1x⟩
        exact ⟨⟨lt_of_lt_of_le h hpx, h1x⟩, hpx⟩
    rw [hset, Real.volume_Ico]

/-- Volume of the draw-pairs producing a given outcome pair, for a
two-stage threshold sampler: the first outcome is +1 iff `u1 < p`; the
second outcome is +1 iff `u2 < q1` (resp. `qm`) when the first outcome
was +1 (resp. −1). -/
lemma vol_threshold_pair (p q1 qm : ℝ) (hp0 : 0 ≤ p) (hp1 : p ≤ 1)
    (hq10 : 0 ≤ q1) (hq11 : q1 ≤ 1) (hqm0 : 0 ≤ qm) (hqm1 : qm ≤ 1) (a b : ℤ)
    (ha : a = 1 ∨ a = -1) (hb : b = 1 ∨ b = -1) :
    MeasureTheory.volume {u : ℝ × ℝ | u.1 ∈ Set.Ioo (0:ℝ) 1
        ∧ u.2 ∈ Set.Ioo (0:ℝ) 1
        ∧ ((if u.1 < p then (1:ℤ) else -1) = a
        ∧ (if u.2 < (if u.1 < p then q1 else qm) then (1:ℤ) else -1) = b)}
      = ENNReal.ofReal ((if a = 1 then p else 1 - p) *
          (if b = 1 then (if a = 1 then q1 else qm)
            else 1 - (if a = 1 then q1 else qm))) := by
  rcases ha with rfl | rfl <;> rcases hb with rfl | rfl
  · have hset : {u : ℝ × ℝ | u.1 ∈ Set.Ioo (0:ℝ) 1 ∧ u.2 ∈ Set.Ioo (0:ℝ) 1
        ∧ ((if u.1 < p then (1:ℤ) else -1) = 1
        ∧ (if u.2 < (if u.1 < p then q1 else qm) then (1:ℤ) else -1) = 1)}
        = {x : ℝ | x ∈ Set.Ioo (0:ℝ) 1 ∧ x < p}
          ×ˢ {y : ℝ | y ∈ Set.Ioo (0:ℝ) 1 ∧ y < q1} := by
      ext u
      simp only [Set.mem_setOf_eq, Set.mem_prod, ite_pm_eq_one]
      constructor
      · rintro ⟨h1, h2, h3, h4⟩
        rw [if_pos h3] at h4
        exact ⟨⟨h1, h3⟩, h2, h4⟩
      · rintro ⟨⟨h1, h3⟩, h2, h4⟩
        exact ⟨h1, h2, h3, by rwa [if_pos h3]⟩
    rw [hset, MeasureTheory.Measure.volume_eq_prod, MeasureTheory.Measure.prod_prod,
      vol_lower p hp1, vol_lower q1 hq11, ← ENNReal.ofReal_mul hp0]
    norm_num
  · have hset : {u : ℝ × ℝ | u.1 ∈ Set.Ioo (0:ℝ) 1 ∧ u.2 ∈ Set.Ioo (0:ℝ) 1
        ∧ ((if u.1 < p then (1:ℤ) else -1) = 1
        ∧ (if u.2 < (if u.1 < p then q1 else qm) then (1:ℤ) else -1) = -1)}
        = {x : ℝ | x ∈ Set.Ioo (0:ℝ) 1 ∧ x < p}
          ×ˢ {y : ℝ | y ∈ Set.Ioo (0:ℝ) 1 ∧ ¬ y < q1} := by
      ext u
      simp only [Set.mem_setOf_eq, Set.mem_prod, ite_pm_eq_one]
      constructor
      · rintro ⟨h1, h2, h3, h4⟩
        rw [if_pos h3] at h4
        refine ⟨⟨h1, h3⟩, h2, fun hy => ?_⟩
        rw [if_pos hy] at h4
        exact absurd h4 (by decide)
      · rintro ⟨⟨h1, h3⟩, h2, h4⟩
        refine ⟨h1, h2, h3, ?_⟩
        rw [if_pos h3, if_neg h4]
    rw [hset, MeasureTheory.Measure.volume_eq_prod, MeasureTheory.Measure.prod_prod,
      vol_lower p hp1, vol_upper q1 hq10 hq11, ← ENNReal.ofReal_mul hp0]
    norm_num
  · have hset : {u : ℝ × ℝ | u.1 ∈ Set.Ioo (0:ℝ) 1 ∧ u.2 ∈ Set.Ioo (0:ℝ) 1
        ∧ ((if u.1 < p then (1:ℤ) else -1) = -1
        ∧ (if u.2 < (if u.1 < p then q1 else qm) then (1:ℤ) else -1) = 1)}
        = {x : ℝ | x ∈ Set.Ioo (0:ℝ) 1 ∧ ¬ x < p}
          ×ˢ {y : ℝ | y ∈ Set.Ioo (0:ℝ) 1 ∧ y < qm} := by
      ext u
      simp only [Set.mem_setOf_eq, Set.mem_prod, ite_pm_eq_one]
      constructor
      · rintro ⟨h1, h2, h3, h4⟩
        have h3n : ¬ u.1 < p := by
          intro hc
          rw [if_pos hc] at h3
          exact absurd h3 (by decide)
        rw [if_neg h3n] at h4
        exact ⟨⟨h1, h3n⟩, h2, h4⟩
      · rintro ⟨⟨h1, h3⟩, h2, h4⟩
        exact ⟨h1, h2, by rw [if_neg h3], by rwa [if_neg h3]⟩
    rw [hset, MeasureTheory.Measure.volume_eq_prod, MeasureTheory.Measure.prod_prod,
      vol_upper p hp0 hp1, vol_lower qm hqm1,
      ← ENNReal.ofReal_mul (by linarith : (0:ℝ) ≤ 1 - p)]
    norm_num
  · have hset : {u : ℝ × ℝ | u.1 ∈ Set.Ioo (0:ℝ) 1 ∧ u.2 ∈ Set.Ioo (0:ℝ) 1
        ∧ ((if u.1 < p then (1:ℤ) else -1) = -1
        ∧ (if u.2 < (if u.1 < p then q1 else qm) then (1:ℤ) else -1) = -1)}
        = {x : ℝ | x ∈ Set.Ioo (0:ℝ) 1 ∧ ¬ x < p}
          ×ˢ {y : ℝ | y ∈ Set.Ioo (0:ℝ) 1 ∧ ¬ y < qm} := by
      ext u
      simp only [Set.mem_setOf_eq, Set.mem_prod, ite_pm_eq_one]
      constructor
      · rintro ⟨h1, h2, h3, h4⟩
        have h3n : ¬ u.1 < p := by
          intro hc
          rw [if_pos hc] at h3
          exact absurd h3 (by decide)
        rw [if_neg h3n] at h4
        refine ⟨⟨h1, h3n⟩, h2, fun hy => ?_⟩
        rw [if_pos hy] at h4
        exact absurd h4 (by decide)
      · rintro ⟨⟨h1, h3⟩, h2, h4⟩
        refine ⟨h1, h2, by rw [if_neg h3], ?_⟩
        rw [if_neg h3, if_neg h4]
    rw [hset, MeasureTheory.Measure.volume_eq_prod, MeasureTheory.Measure.prod_prod,
      vol_upper p hp0 hp1, vol_upper qm hqm0 hqm1,
      ← ENNReal.ofReal_mul (by linarith : (0:ℝ) ≤ 1 - p)]
    norm_num

lemma prob_p12_ite (ψ : TwoQ) (d1p d1m d2p d2m : Qubit) (sim : Bool)
    (c : Prop) [Decidable c] :
    prob_p12 ψ d1p d1m d2p d2m sim (if c then 1 else -1)
      = if c then prob_p12 ψ d1p d1m d2p d2m sim 1
        else prob_p12 ψ d1p d1m d2p d2m sim (-1) := by
  split_ifs <;> rfl

lemma pq_eq (v w : Qubit) (ψ : TwoQ) :
    normSqQ (colInner v ψ)
      * (Complex.normSq (jointAmp v w ψ) / normSqQ (colInner v ψ))
      = Complex.normSq (jointAmp v w ψ) := by
  rcases eq_or_ne (normSqQ (colInner v ψ)) 0 with h | h
  · rw [h, zero_mul,
      show jointAmp v w ψ = 0 from innerC_eq_zero_of_normSqQ_eq_zero w _ h]
    simp
  · field_simp

lemma pq_eq_row (v w : Qubit) (ψ : TwoQ) :
    normSqQ (rowInner w ψ)
      * (Complex.normSq (jointAmp v w ψ) / normSqQ (rowInner w ψ))
      = Complex.normSq (jointAmp v w ψ) := by
  rcases eq_or_ne (normSqQ (rowInner w ψ)) 0 with h | h
  · rw [h, zero_mul, show jointAmp v w ψ = 0 from by
      rw [← jointAmp_row]
      exact innerC_eq_zero_of_normSqQ_eq_zero v _ h]
    simp
  · field_simp

lemma pq_compl (wp wm : Qubit) (hwp : normSqQ wp = 1) (hwm : normSqQ wm = 1)
    (hwo : innerC wp wm = 0) (v : Qubit) (ψ : TwoQ) :
    normSqQ (colInner v ψ)
      * (1 - Complex.normSq (jointAmp v wp ψ) / normSqQ (colInner v ψ))
      = Complex.normSq (jointAmp v wm ψ) := by
  have hpar := parseval_joint wp wm hwp hwm hwo v ψ
  rw [mul_sub, mul_one, pq_eq]
  linarith

lemma pq_compl_row (vp vm : Qubit) (hvp : normSqQ vp = 1)
    (hvm : normSqQ vm = 1) (hvo : innerC vp vm = 0) (w : Qubit) (ψ : TwoQ) :
    normSqQ (rowInner w ψ)
      * (1 - Complex.normSq (jointAmp vp w ψ) / normSqQ (rowInner w ψ))
      = Complex.normSq (jointAmp vm w ψ) := by
  have hpar := parseval vp vm hvp hvm hvo (rowInner w ψ)
  rw [jointAmp_row, jointAmp_row] at hpar
  rw [mul_sub, mul_one, pq_eq_row]
  linarith

lemma q_le_one_col (wp wm : Qubit) (hwp : normSqQ wp = 1)
    (hwm : normSqQ wm = 1) (hwo : innerC wp wm = 0) (v : Qubit) (ψ : TwoQ) :
    Complex.normSq (jointAmp v wp ψ) / normSqQ (colInner v ψ) ≤ 1 := by
  have hpar := parseval_joint wp wm hwp hwm hwo v ψ
  exact div_le_one_of_le₀
    (by linarith [Complex.normSq_nonneg (jointAmp v wm ψ)]) (normSqQ_nonneg _)

lemma q_le_one_row (vp vm : Qubit) (hvp : normSqQ vp = 1)
    (hvm : normSqQ vm = 1) (hvo : innerC vp vm = 0) (w : Qubit) (ψ : TwoQ) :
    Complex.normSq (jointAmp vp w ψ) / normSqQ (rowInner w ψ) ≤ 1 := by
  have hpar := parseval vp vm hvp hvm hvo (rowInner w ψ)
  rw [jointAmp_row, jointAmp_row] at hpar
  exact div_le_one_of_le₀
    (by linarith [Complex.normSq_nonneg (jointAmp vm w ψ)]) (normSqQ_nonneg _)

/-- Claim C2: order invariance of the sequential joint measurement.  For
every unit-norm two-qubit state and orthonormal direction pairs for A and
B, and for each outcome pair (a, b), the set of uniform draw pairs on
which `measureSpin` reports (outcomeA, outcomeB) = (a, b) has the same
Lebesgue measure whether A is measured first (`simulate_A = True`) or B
is measured first (`simulate_A = False`, with the returned pair already
mapped back to (A, B) order by `measureSpin`). -/
theorem C2_order_invariance (ψ : TwoQ) (hψ : sumSq ψ = 1) (vp vm wp wm : Qubit)
    (hvp : normSqQ vp = 1) (hvm : normSqQ vm = 1) (hvo : innerC vp vm = 0)
    (hwp : normSqQ wp = 1) (hwm : normSqQ wm = 1) (hwo : innerC wp wm = 0)
    (a b : ℤ) (ha : a = 1 ∨ a = -1) (hb : b = 1 ∨ b = -1) :
    MeasureTheory.volume {u : ℝ × ℝ | u.1 ∈ Set.Ioo (0:ℝ) 1
        ∧ u.2 ∈ Set.Ioo (0:ℝ) 1
        ∧ measureSpin ψ vp vm wp wm true u.1 u.2 = (a, b)}
      = MeasureTheory.volume {u : ℝ × ℝ | u.1 ∈ Set.Ioo (0:ℝ) 1
        ∧ u.2 ∈ Set.Ioo (0:ℝ) 1
        ∧ measureSpin ψ vp vm wp wm false u.1 u.2 = (a, b)} := by
  have hpA : prob_p11 ψ vp wp true = normSqQ (colInner vp ψ) :=
    prob_p11_true ψ vp wp
  have hpB : prob_p11 ψ vp wp false = normSqQ (rowInner wp ψ) :=
    prob_p11_false ψ vp wp
  have hq1 : prob_p12 ψ vp vm wp wm true 1
      = Complex.normSq (jointAmp vp wp ψ) / normSqQ (colInner vp ψ) := by
    rw [prob_p12_true_eq, if_pos rfl, probOf_cond_true wp vp ψ hvp]
  have hqm : prob_p12 ψ vp vm wp wm true (-1)
      = Complex.normSq (jointAmp vm wp ψ) / normSqQ (colInner vm ψ) := by
    rw [prob_p12_true_eq, if_neg (by decide : ¬((-1:ℤ) = 1)),
      probOf_cond_true wp vm ψ hvm]
  have hr1 : prob_p12 ψ vp vm wp wm false 1
      = Complex.normSq (jointAmp vp wp ψ) / normSqQ (rowInner wp ψ) := by
    rw [prob_p12_false_eq, if_pos rfl, probOf_cond_false vp wp ψ hwp]
  have hrm : prob_p12 ψ vp vm wp wm false (-1)
      = Complex.normSq (jointAmp vp wm ψ) / normSqQ (rowInner wm ψ) := by
    rw [prob_p12_false_eq, if_neg (by decide : ¬((-1:ℤ) = 1)),
      probOf_cond_false vp wm ψ hwm]
  have hcol := parseval_col vp vm hvp hvm hvo ψ
  rw [hψ] at hcol
  have hrow := parseval_row wp wm hwp hwm hwo ψ
  rw [hψ] at hrow
  have hA0 := normSqQ_nonneg (colInner vp ψ)
  have hAm0 := normSqQ_nonneg (colInner vm ψ)
  have hB0 := normSqQ_nonneg (rowInner wp ψ)
  have hBm0 := normSqQ_nonneg (rowInner wm ψ)
  have hsetT : {u : ℝ × ℝ | u.1 ∈ Set.Ioo (0:ℝ) 1 ∧ u.2 ∈ Set.Ioo (0:ℝ) 1
      ∧ measureSpin ψ vp vm wp wm true u.1 u.2 = (a, b)}
      = {u : ℝ × ℝ | u.1 ∈ Set.Ioo (0:ℝ) 1 ∧ u.2 ∈ Set.Ioo (0:ℝ) 1
      ∧ ((if u.1 < prob_p11 ψ vp wp true then (1:ℤ) else -1) = a
      ∧ (if u.2 < (if u.1 < prob_p11 ψ vp wp true
          then prob_p12 ψ vp vm wp wm true 1
          else prob_p12 ψ vp vm wp wm true (-1)) then (1:ℤ) else -1) = b)} := by
    ext u
    simp only [Set.mem_setOf_eq, measureSpin, TwoSpin.Measure, Prod.mk.injEq,
      prob_p12_ite, reduceIte]
  have hsetF : {u : ℝ × ℝ | u.1 ∈ Set.Ioo (0:ℝ) 1 ∧ u.2 ∈ Set.Ioo (0:ℝ) 1
      ∧ measureSpin ψ vp vm wp wm false u.1 u.2 = (a, b)}
      = {u : ℝ × ℝ | u.1 ∈ Set.Ioo (0:ℝ) 1 ∧ u.2 ∈ Set.Ioo (0:ℝ) 1
      ∧ ((if u.1 < prob_p11 ψ vp wp false then (1:ℤ) else -1) = b
      ∧ (if u.2 < (if u.1 < prob_p11 ψ vp wp false
          then prob_p12 ψ vp vm wp wm false 1
          else prob_p12 ψ vp vm wp wm false (-1)) then (1:ℤ) else -1) = a)} := by
    ext u
    simp only [Set.mem_setOf_eq, measureSpin, TwoSpin.Measure, Prod.mk.injEq,
      prob_p12_ite, show (false = true) = False by simp, if_false]
    tauto
  rw [hsetT, hsetF]
  rw [vol_threshold_pair (prob_p11 ψ vp wp true) (prob_p12 ψ vp vm wp wm true 1)
    (prob_p12 ψ vp vm wp wm true (-1))
    (probOf_nonneg _ _) (by rw [hpA]; linarith)
    (by rw [hq1]; exact div_nonneg (Complex.normSq_nonneg _) hA0)
    (by rw [hq1]; exact q_le_one_col wp wm hwp hwm hwo vp ψ)
    (by rw [hqm]; exact div_nonneg (Complex.normSq_nonneg _) hAm0)
    (by rw [hqm]; exact q_le_one_col wp wm hwp hwm hwo vm ψ)
    a b ha hb]
  rw [vol_threshold_pair (prob_p11 ψ vp wp false) (prob_p12 ψ vp vm wp wm false 1)
    (prob_p12 ψ vp vm wp wm false (-1))
    (probOf_nonneg _ _) (by rw [hpB]; linarith)
    (by rw [hr1]; exact div_nonneg (Complex.normSq_nonneg _) hB0)
    (by rw [hr1]; exact q_le_one_row vp vm hvp hvm hvo wp ψ)
    (by rw [hrm]; exact div_nonneg (Complex.normSq_nonneg _) hBm0)
    (by rw [hrm]; exact q_le_one_row vp vm hvp hvm hvo wm ψ)
    b a hb ha]
  congr 1
  rcases ha with rfl | rfl <;> rcases hb with rfl | rfl <;>
    simp only [reduceIte, show ((-1 : ℤ) = 1) = False by simp, if_false,
      hpA, hpB, hq1, hqm, hr1, hrm]
  · rw [pq_eq, pq_eq_row]
  · rw [show (1 - normSqQ (rowInner wp ψ)) = normSqQ (rowInner wm ψ) by
      linarith]
    rw [pq_compl wp wm hwp hwm hwo vp ψ, pq_eq_row vp wm ψ]
  · rw [show (1 - normSqQ (colInner vp ψ)) = normSqQ (colInner vm ψ) by
      linarith]
    rw [pq_eq vm wp ψ, pq_compl_row vp vm hvp hvm hvo wp ψ]
  · rw [show (1 - normSqQ (colInner vp ψ)) = normSqQ (colInner vm ψ) by
      linarith]
    rw [show (1 - normSqQ (rowInner wp ψ)) = normSqQ (rowInner wm ψ) by
      linarith]
    rw [pq_compl wp wm hwp hwm hwo vm ψ, pq_compl_row vp vm hvp hvm hvo wm ψ]

/-- Witness for C2: singlet state, z-axis direction pairs on both sides,
outcome pair (+1, −1). -/
theorem C2_order_invariance_witness :
    MeasureTheory.volume {u : ℝ × ℝ | u.1 ∈ Set.Ioo (0:ℝ) 1
        ∧ u.2 ∈ Set.Ioo (0:ℝ) 1
        ∧ measureSpin singletV qup qdn qup qdn true u.1 u.2 = (1, -1)}
      = MeasureTheory.volume {u : ℝ × ℝ | u.1 ∈ Set.Ioo (0:ℝ) 1
        ∧ u.2 ∈ Set.Ioo (0:ℝ) 1
        ∧ measureSpin singletV qup qdn qup qdn false u.1 u.2 = (1, -1)} :=
  C2_order_invariance singletV sumSq_singletV qup qdn qup qdn
    (by simp [normSqQ, qup, Fin.sum_univ_two])
    (by simp [normSqQ, qdn, Fin.sum_univ_two])
    (by simp [innerC, qup, qdn, Fin.sum_univ_two])
    (by simp [normSqQ, qup, Fin.sum_univ_two])
    (by simp [normSqQ, qdn, Fin.sum_univ_two])
    (by simp [innerC, qup, qdn, Fin.sum_univ_two])
    1 (-1) (Or.inl rfl) (Or.inr rfl)

/-- Witness for C1 at the z-axis basis pair and concrete draws. -/
theorem C1_singlet_equal_directions_agreement_witness :
    (∀ sim : Bool,
      (TwoSpin.Measure singletV qup qdn qup qdn sim (1/4) (1/3)).2
        = -(TwoSpin.Measure singletV qup qdn qup qdn sim (1/4) (1/3)).1) ∧
    (eprOutcomes singletV qup qdn qup qdn 0 (1/4) (1/3) true).1
      = (eprOutcomes singletV qup qdn qup qdn 0 (1/4) (1/3) true).2 :=
  C1_singlet_equal_directions_agreement qup qdn
    (by simp [normSqQ, qup, Fin.sum_univ_two])
    (by simp [normSqQ, qdn, Fin.sum_univ_two])
    (by simp [innerC, qup, qdn, Fin.sum_univ_two])
    0 (1/4) (1/3) (by norm_num) (by norm_num)

end QES

namespace QES

open ComplexConjugate

/-! ### Claims C6 and C7: sampling value range and degenerate collapse -/

lemma normSqQ_qperp (v : Qubit) : normSqQ (qperp v) = normSqQ v := by
  simp only [normSqQ, qperp, Fin.sum_univ_two, reduceIte]
  rw [if_neg (show ¬((1 : Fin 2) = 0) from by decide)]
  simp [Complex.normSq_conj]
  ring

lemma innerC_qperp (v : Qubit) : innerC v (qperp v) = 0 := by
  simp only [innerC, qperp, Fin.sum_univ_two, reduceIte]
  rw [if_neg (show ¬((1 : Fin 2) = 0) from by decide)]
  ring

/-- Counterexample for C6: no clipping exists in the code; the value
compared against the uniform draw is `|Tr(P·ρ)|`, which exceeds 1 for
a (syntactically allowed) non-unit direction argument, here `[2, 0]`
against the basis state |uu⟩. -/
theorem C6_probability_clipping_counterexample :
    ¬ (prob_p11 (bvec 0 0) qtwo qtwo true ≤ 1) := by
  have h : prob_p11 (bvec 0 0) qtwo qtwo true = 4 := by
    rw [prob_p11_true]
    simp only [normSqQ, colInner, qtwo, bvec, Fin.sum_univ_two]
    norm_num
  rw [h]
  norm_num

/-- Amended C6: the sampling value is an absolute value, so it is always
nonnegative, and whenever the measured subsystem's direction vector has
unit norm and the state has unit norm it also stays ≤ 1 — but no clipping
operation exists and nothing enforces the upper bound for other inputs. -/
theorem C6_sampling_probability_amended (ψ : TwoQ) (d1p d2p : Qubit)
    (sim : Bool) (hψ : sumSq ψ = 1)
    (hd : normSqQ (if sim then d1p else d2p) = 1) :
    0 ≤ prob_p11 ψ d1p d2p sim ∧ prob_p11 ψ d1p d2p sim ≤ 1 := by
  refine ⟨probOf_nonneg _ _, ?_⟩
  cases sim
  · simp only [Bool.false_eq_true, if_false] at hd
    rw [prob_p11_false]
    have hperp : normSqQ (qperp d2p) = 1 := by rw [normSqQ_qperp, hd]
    have hpar := parseval_row d2p (qperp d2p) hd hperp (innerC_qperp d2p) ψ
    rw [hψ] at hpar
    linarith [normSqQ_nonneg (rowInner (qperp d2p) ψ)]
  · simp only [if_true] at hd
    rw [prob_p11_true]
    have hperp : normSqQ (qperp d1p) = 1 := by rw [normSqQ_qperp, hd]
    have hpar := parseval_col d1p (qperp d1p) hd hperp (innerC_qperp d1p) ψ
    rw [hψ] at hpar
    linarith [normSqQ_nonneg (colInner (qperp d1p) ψ)]

/-- Witness for the amended C6 at the basis state and z-axis direction. -/
theorem C6_sampling_probability_amended_witness :
    0 ≤ prob_p11 (bvec 0 0) qup qup true ∧
    prob_p11 (bvec 0 0) qup qup true ≤ 1 :=
  C6_sampling_probability_amended (bvec 0 0) qup qup true
    (by simp [sumSq, bvec, Fin.sum_univ_two])
    (by simp [normSqQ, qup, Fin.sum_univ_two])

lemma applyP1_proj_qzero :
    applyP1 (proj qzero) (bvec 0 0) = fun _ _ => 0 := by
  funext i j
  simp [applyP1, proj, qzero, Fin.sum_univ_two]

/-- Counterexample for C7: at a degenerate collapse (the projected vector
`P·psi` has exactly zero norm) the joint measurement does not raise any
error: the normalization divides regardless and a normal outcome pair is
still returned — in exact arithmetic the collapsed vector becomes the
zero vector and the second outcome probability 0; in floating point, the
same division produces NaN entries which likewise propagate without an
exception.  No `NumericalDegeneracyError` (or any guard on the norm)
exists anywhere in the source. -/
theorem C7_degenerate_collapse_counterexample :
    norm4 (applyP1 (proj qzero) (bvec 0 0)) = 0 ∧
    TwoSpin.Measure (bvec 0 0) qzero qzero qup qdn true (1/2) (1/2)
      = (-1, -1) := by
  constructor
  · rw [applyP1_proj_qzero]
    simp [norm4, sumSq, Fin.sum_univ_two]
  · rw [Measure_eq]
    have hz : prob_p11 (bvec 0 0) qzero qup true = 0 := by
      rw [prob_p11_true]
      simp [normSqQ, colInner, qzero, Fin.sum_univ_two]
    rw [hz, if_neg (by norm_num : ¬((1:ℝ)/2 < 0))]
    have h12 : prob_p12 (bvec 0 0) qzero qzero qup qdn true (-1) = 0 := by
      rw [prob_p12_true_eq, if_neg (by decide : ¬((-1:ℤ) = 1)),
        probOf_proj_Rho2_normalize, applyP1_proj_qzero]
      simp [normSqQ, rowInner, sumSq, Fin.sum_univ_two]
    rw [h12, if_neg (by norm_num : ¬((1:ℝ)/2 < 0))]

/-- Amended C7: the collapse step is total — for every state, direction
arguments and draws, `TwoSpin.Measure` returns a pair of ±1 outcomes,
even when the projected vector has zero norm; it never raises. -/
theorem C7_measure_total_amended (ψ : TwoQ) (d1p d1m d2p d2m : Qubit)
    (sim : Bool) (u1 u2 : ℝ) :
    ((TwoSpin.Measure ψ d1p d1m d2p d2m sim u1 u2).1 = 1 ∨
      (TwoSpin.Measure ψ d1p d1m d2p d2m sim u1 u2).1 = -1) ∧
    ((TwoSpin.Measure ψ d1p d1m d2p d2m sim u1 u2).2 = 1 ∨
      (TwoSpin.Measure ψ d1p d1m d2p d2m sim u1 u2).2 = -1) := by
  rw [Measure_eq]
  constructor <;> split_ifs <;> simp

end QES

namespace QES

/-! ### Claim C8: Bell-estimate pooling -/

lemma length_filter_out (recs : List TrialRec) (sA sB r1 r2 : ℤ) :
    ((recs.filter fun t => t.sw1 == sA && t.sw2 == sB).filter
        fun t => t.m1 == r1 && t.m2 == r2).length
      = countSwOut recs sA sB r1 r2 := by
  rw [List.filter_filter, countSwOut]
  congr 1
  apply List.filter_congr
  intro a _
  exact Bool.and_comm _ _

lemma calculate_probabilities_exp2_eq (recs : List TrialRec)
    (swA swB r1 r2 : ℤ) :
    calculate_probabilities_exp2 recs swA swB r1 r2
      = (countSw recs swA swB + countSw recs swB swA,
          if 0 < countSw recs swB swA then
            ((if 0 < countSw recs swA swB then
                (countSwOut recs swA swB r1 r2 : ℚ) / (countSw recs swA swB : ℕ)
              else 0) * (countSw recs swA swB : ℕ)
              + (countSwOut recs swB swA r2 r1 : ℚ) / (countSw recs swB swA : ℕ)
                * (countSw recs swB swA : ℕ))
              / ((countSw recs swA swB + countSw recs swB swA : ℕ) : ℚ)
          else
            (if 0 < countSw recs swA swB then
              (countSwOut recs swA swB r1 r2 : ℚ) / (countSw recs swA swB : ℕ)
            else 0)) := by
  simp only [calculate_probabilities_exp2, length_filter_out]
  rfl

end QES

namespace QES

/-- Claim C8: `calculate_probabilities_exp2(sw_A, sw_B, r_1, r_2)`
returns the pair `(n1+n2, (n1*p1 + n2*p2)/(n1+n2))` whenever `n1+n2 > 0`,
where `n1`, `p1` are the count and fraction of trials with switches
`(sw_A, sw_B)` and outcomes `(r_1, r_2)`, and `n2`, `p2` the same for the
swapped switches `(sw_B, sw_A)` with outcomes `(r_2, r_1)`; when no trial
matches either ordering it returns `(0, 0.0)`. -/
theorem C8_bell_pooling (recs : List TrialRec) (swA swB r1 r2 : ℤ) :
    (0 < countSw recs swA swB + countSw recs swB swA →
      calculate_probabilities_exp2 recs swA swB r1 r2
        = (countSw recs swA swB + countSw recs swB swA,
            ((countSw recs swA swB : ℚ)
                * ((countSwOut recs swA swB r1 r2 : ℚ) / (countSw recs swA swB : ℚ))
              + (countSw recs swB swA : ℚ)
                * ((countSwOut recs swB swA r2 r1 : ℚ) / (countSw recs swB swA : ℚ)))
              / ((countSw recs swA swB : ℚ) + (countSw recs swB swA : ℚ)))) ∧
    (countSw recs swA swB + countSw recs swB swA = 0 →
      calculate_probabilities_exp2 recs swA swB r1 r2 = (0, 0)) := by
  rw [calculate_probabilities_exp2_eq]
  constructor
  · intro hpos
    rcases Nat.eq_zero_or_pos (countSw recs swA swB) with h1 | h1 <;>
      rcases Nat.eq_zero_or_pos (countSw recs swB swA) with h2 | h2
    · omega
    · rw [if_pos h2, if_neg (by omega : ¬ 0 < countSw recs swA swB), h1]
      have h2q : ((countSw recs swB swA : ℕ) : ℚ) ≠ 0 := by
        exact_mod_cast Nat.pos_iff_ne_zero.mp h2
      push_cast
      field_simp
    · rw [if_neg (by omega : ¬ 0 < countSw recs swB swA), if_pos h1, h2]
      have h1q : ((countSw recs swA swB : ℕ) : ℚ) ≠ 0 := by
        exact_mod_cast Nat.pos_iff_ne_zero.mp h1
      push_cast
      field_simp
    · rw [if_pos h2, if_pos h1]
      have h1q : ((countSw recs swA swB : ℕ) : ℚ) ≠ 0 := by
        exact_mod_cast Nat.pos_iff_ne_zero.mp h1
      have h2q : ((countSw recs swB swA : ℕ) : ℚ) ≠ 0 := by
        exact_mod_cast Nat.pos_iff_ne_zero.mp h2
      push_cast
      field_simp
  · intro hzero
    have h1 : countSw recs swA swB = 0 := by omega
    have h2 : countSw recs swB swA = 0 := by omega
    rw [if_neg (by omega : ¬ 0 < countSw recs swB swA),
      if_neg (by omega : ¬ 0 < countSw recs swA swB), h1, h2]

/-- Witness for C8 on a concrete two-trial record list. -/
theorem C8_bell_pooling_witness :
    calculate_probabilities_exp2
        [⟨0, 1, 1, -1⟩, ⟨1, 0, -1, 1⟩] 0 1 1 (-1)
      = (2, (1 * ((1 : ℚ) / 1) + 1 * ((1 : ℚ) / 1)) / (1 + 1)) :=
  (C8_bell_pooling [⟨0, 1, 1, -1⟩, ⟨1, 0, -1, 1⟩] 0 1 1 (-1)).1 (by decide)

end QES

namespace QES

/-! ### Claim C9: correlation display guard -/

/-- Counterexample for C9: the sample lists below pass the display guard
(`len(A.th_ph) > 0 and len(B.th_ph) > 0 and len(A.z) > 3`), yet the
z-axis sample for A has zero variance, so `np.corrcoef` is undefined
(NaN) and is still displayed, and the th_ph correlation (shown when
`cfg.m` is set) rests on a single sample, below the claimed 4-sample
minimum. -/
theorem C9_correlation_guard_counterexample :
    showCorr { Az := [1, 1, 1, 1], Bz := [1, -1, 1, -1], Ax := [], Bx := [],
               Ay := [], By := [], Athph := [1], Bthph := [1] } = true ∧
    corrDefined [1, 1, 1, 1] [1, -1, 1, -1] = false ∧
    ([(1 : ℚ)].length < 4) := by
  refine ⟨by decide, ?_, by decide⟩
  have h1 : devSq [(1 : ℚ), 1, 1, 1] = 0 := by
    norm_num [devSq, listMean]
  simp [corrDefined, h1]

/-- Amended C9: the guard only ensures that at least 4 z-axis samples for
A and at least one th_ph sample per side exist when the correlation block
is shown; it does not rule out an undefined (NaN) coefficient for a
zero-variance sample, nor enforce 4 samples for the th_ph correlation. -/
theorem C9_correlation_guard_amended (s : SigmaS) (h : showCorr s = true) :
    3 < s.Az.length ∧ 0 < s.Athph.length ∧ 0 < s.Bthph.length := by
  rw [showCorr] at h
  simp only [Bool.and_eq_true, decide_eq_true_eq] at h
  exact ⟨h.2, h.1.1, h.1.2⟩

/-- Witness for the amended C9 at a concrete sample store. -/
theorem C9_correlation_guard_amended_witness :
    3 < ([(1 : ℚ), 1, -1, 1]).length ∧ 0 < ([(1 : ℚ)]).length ∧
    0 < ([(-1 : ℚ)]).length :=
  C9_correlation_guard_amended
    { Az := [1, 1, -1, 1], Bz := [1, -1, 1, -1], Ax := [], Bx := [],
      Ay := [], By := [], Athph := [1], Bthph := [-1] } (by decide)

end QES
